import Mathlib

/-!
Verification development for the CCF-Rank venue-matching engine.

The source is a TypeScript module (`src/modules/ccfRank.ts`) consisting of:
* `CCFRankService` — a reference index over a static table of conference and
  journal entries, a name-normalization pipeline, and a four-strategy matcher
  (`getEntry`), plus a field-priority extractor over bibliographic records
  (`getEntryFromItem`);
* `ManualCCFRankService` — a per-item manual-rank map and ignore set;
* the composed column `dataProvider` that layers manual overrides over the
  matcher result.

Strings are modelled as `List Char`.  JavaScript `Map` objects are modelled as
insertion-ordered association lists (`mapSet` overwrites in place, `mapGet`
returns the unique binding, iteration follows list order, matching JS `Map`
insertion-order semantics).  JS `Set` objects are modelled as duplicate-free
lists.  The regex-based `replace` calls of the normalizer are modelled by
direct anchored parsers, each faithful to the backtracking behaviour of its
regex (analyzed case by case in the doc comments).  Character classes cover
the ASCII range (`\s` as ASCII whitespace, `toLowerCase` on A–Z), which is the
range exercised by the table keys and the regex literals.
-/

namespace CCFRank

/-- ASCII whitespace, the characters matched by the regex class `\s` and
removed by `trim` on the strings this module handles: space, tab, newline,
vertical tab, form feed, carriage return. -/
def isWS (c : Char) : Bool :=
  c == ' ' || c == '\t' || c == '\n' || c.toNat == 11 || c.toNat == 12 || c == '\r'

/-- The ASCII apostrophe (0x27), the only character in the source's
apostrophe character classes (`['']` in the regex literals is the byte 0x27
written twice). -/
def quoteChar : Char := Char.ofNat 39

/-- Lowercase a string character by character, as `toLowerCase` acts on the
ASCII strings involved. -/
def toLowerList (l : List Char) : List Char := l.map Char.toLower

/-- Remove leading whitespace, as the left half of `String.prototype.trim`. -/
def trimLeftWS (l : List Char) : List Char := l.dropWhile isWS

/-- Remove trailing whitespace, as the right half of `String.prototype.trim`. -/
def trimRightWS (l : List Char) : List Char := (l.reverse.dropWhile isWS).reverse

/-- Remove whitespace from both ends, as `String.prototype.trim`. -/
def trimWS (l : List Char) : List Char := trimRightWS (trimLeftWS l)

/-- Remove a literal from the front of a string: `stripLit p l = some r` when
`l = p ++ r`, `none` when `p` is not a prefix of `l`. -/
def stripLit : List Char → List Char → Option (List Char)
  | [], l => some l
  | _ :: _, [] => none
  | p :: ps, c :: cs => if p = c then stripLit ps cs else none

/-- Step 1 of the normalizer: `.replace(/^proceedings of (the )?\d{4}\s+(on\s+)?/i, "")`.
The input is already lowercased, so the `i` flag is inert.  The optional
`(the )?` group never needs backtracking: `the` cannot begin with a digit, so
if the four-digit requirement fails after consuming `the ` it also fails
without it, and the whole regex fails, leaving the string unchanged.  The
optional `(on\s+)?` group is taken only when `on` is followed by at least one
whitespace character. -/
def stripProcYearPre (l : List Char) : List Char :=
  match stripLit ("proceedings of ".data) l with
  | none => l
  | some r1 =>
    let r2 := match stripLit ("the ".data) r1 with
      | some r => r
      | none => r1
    if 4 ≤ r2.length ∧ (r2.take 4).all Char.isDigit then
      match r2.drop 4 with
      | c :: rest =>
        if isWS c then
          let r4 := (c :: rest).dropWhile isWS
          match stripLit ("on".data) r4 with
          | some r5 =>
            match r5 with
            | d :: _ => if isWS d then r5.dropWhile isWS else r4
            | [] => r4
          | none => r4
        else l
      | [] => l
    else l

/-- Step 2 of the normalizer: `.replace(/^proceedings of (the )?/i, "")`.
Always succeeds when the literal prefix is present; the optional `the ` is
consumed greedily. -/
def stripProcPre (l : List Char) : List Char :=
  match stripLit ("proceedings of ".data) l with
  | none => l
  | some r1 =>
    match stripLit ("the ".data) r1 with
    | some r2 => r2
    | none => r1

/-- Step 3 of the normalizer: `.replace(/^proc\.? of (the )?/i, "")`.  The
optional dot never needs backtracking: if a dot is present but ` of ` does not
follow it, the dotless alternative would have to match ` of ` starting at the
dot, which is impossible. -/
def stripProcDotPre (l : List Char) : List Char :=
  match stripLit ("proc".data) l with
  | none => l
  | some r1 =>
    let r2 := match r1 with
      | d :: t => if d = '.' then t else r1
      | [] => r1
    match stripLit (" of ".data) r2 with
    | none => l
    | some r3 =>
      match stripLit ("the ".data) r3 with
      | some r4 => r4
      | none => r3

/-- Step 4 of the normalizer: `.replace(/^[a-z]+\s*[']\d{2,4}:\s*/i, "")`
(the character class holds only the ASCII apostrophe).  The letter and
whitespace runs are consumed maximally and never backtrack, because the
apostrophe is neither a letter nor whitespace.  The `\d{2,4}` group succeeds
exactly when the maximal digit run after the apostrophe has length 2 to 4 and
is followed by a colon: a shorter prefix of a longer run is always followed by
a digit, never by the required colon. -/
def stripQuoteYearPre (l : List Char) : List Char :=
  let letters := l.takeWhile Char.isLower
  if letters.isEmpty then l
  else
    let r2 := (l.dropWhile Char.isLower).dropWhile isWS
    match r2 with
    | q :: r3 =>
      if q = quoteChar then
        let ds := r3.takeWhile Char.isDigit
        if 2 ≤ ds.length ∧ ds.length ≤ 4 then
          match r3.drop ds.length with
          | d :: r4 => if d = ':' then r4.dropWhile isWS else l
          | [] => l
        else l
      else l
    | [] => l

/-- Step 5 of the normalizer: `.replace(/^\d{4}\s+/, "")`: exactly four
leading digits followed by at least one whitespace character (a fifth digit
defeats the `\s+` and the regex fails). -/
def stripLeadYear (l : List Char) : List Char :=
  if 4 ≤ l.length ∧ (l.take 4).all Char.isDigit then
    match l.drop 4 with
    | c :: rest => if isWS c then (c :: rest).dropWhile isWS else l
    | [] => l
  else l

/-- Step 6 of the normalizer: `.replace(/\s*\d{4}$/, "")`.  A match requires
the last four characters to be digits; the leftmost match then removes those
four digits together with the maximal whitespace run immediately before them
(empty when a fifth digit precedes, since the leftmost viable start is then at
the fourth-from-last digit). -/
def stripTrailYear (l : List Char) : List Char :=
  let r := l.reverse
  if 4 ≤ r.length ∧ (r.take 4).all Char.isDigit then
    ((r.drop 4).dropWhile isWS).reverse
  else l

/-- Step 7 of the normalizer: `.replace(/\s*\([^)]*\)$/, "")`.  A match
requires a final `)`; the `[^)]*` body then forces the opening `(` to be the
first `(` after the last interior `)` (any earlier `(` would put a `)` inside
the body), and the leftmost match extends left over the maximal whitespace run
before that `(`. -/
def stripTrailParen (l : List Char) : List Char :=
  match l.reverse with
  | d :: rest =>
    if d = ')' then
      let seg := rest.takeWhile (fun c => c != ')')
      let fwdSeg := seg.reverse
      if fwdSeg.any (fun c => c == '(') then
        let keptRev := (fwdSeg.takeWhile (fun c => c != '(')).reverse
        let tail0 := rest.drop seg.length
        ((keptRev ++ tail0).dropWhile isWS).reverse
      else l
    else l
  | [] => l

/-- The seven `replace` calls of `getEntry`, in source order. -/
def stripPipeline (l : List Char) : List Char :=
  stripTrailParen (stripTrailYear (stripLeadYear (stripQuoteYearPre
    (stripProcDotPre (stripProcPre (stripProcYearPre l))))))

/-- The full normalization of `getEntry`: `name.trim().toLowerCase()`, the
seven strips, and the final `.trim()`. -/
def normalize (l : List Char) : List Char :=
  trimWS (stripPipeline (toLowerList (trimWS l)))

/-- CCF rank, the `"A" | "B" | "C"` union of the source. -/
inductive Rank where
  | A
  | B
  | C
deriving DecidableEq

/-- The display string of a rank, as stored in the manual-rank map and
returned by the column data provider. -/
def rankChars : Rank → List Char
  | Rank.A => ['A']
  | Rank.B => ['B']
  | Rank.C => ['C']

/-- One row of the static reference table (`CCFEntry` in the source). -/
structure CCFEntry where
  abbr : List Char
  fullName : List Char
  rank : Rank
  category : List Char
deriving DecidableEq

/-- Insert or overwrite a binding, as JS `Map.prototype.set`: an existing key
keeps its position and receives the new value, a new key is appended. -/
def mapSet {κ υ : Type} [DecidableEq κ] (k : κ) (v : υ) : List (κ × υ) → List (κ × υ)
  | [] => [(k, v)]
  | (k', v') :: rest => if k' = k then (k, v) :: rest else (k', v') :: mapSet k v rest

/-- Look a key up, as JS `Map.prototype.get` (with `none` for `undefined`). -/
def mapGet {κ υ : Type} [DecidableEq κ] (k : κ) : List (κ × υ) → Option υ
  | [] => none
  | (k', v) :: rest => if k' = k then some v else mapGet k rest

/-- Remove a key's binding, as JS `Map.prototype.delete`. -/
def mapDelete {κ υ : Type} [DecidableEq κ] (k : κ) : List (κ × υ) → List (κ × υ)
  | [] => []
  | (k', v) :: rest => if k' = k then mapDelete k rest else (k', v) :: mapDelete k rest

/-- The two lookup maps of `CCFRankService`, built in the constructor. -/
structure RefIndex where
  abbrsMap : List (List Char × CCFEntry)
  fullNamesMap : List (List Char × CCFEntry)

/-- The `CCFRankService` constructor: one `forEach` pass over
`[...conferences, ...journals]`, registering each entry under its lowercased
abbreviation and its lowercased full name. -/
def buildIndex (conferences journals : List CCFEntry) : RefIndex :=
  (conferences ++ journals).foldl
    (fun idx entry =>
      { abbrsMap := mapSet (toLowerList entry.abbr) entry idx.abbrsMap,
        fullNamesMap := mapSet (toLowerList entry.fullName) entry idx.fullNamesMap })
    { abbrsMap := [], fullNamesMap := [] }

/-- Whether `pat` begins `l` (helper for substring containment). -/
def beginsWith : List Char → List Char → Bool
  | [], _ => true
  | _ :: _, [] => false
  | p :: ps, c :: cs => p == c && beginsWith ps cs

/-- Whether `pat` occurs contiguously inside `hay`, as
`String.prototype.includes`. -/
def subOccurs (pat : List Char) : List Char → Bool
  | [] => beginsWith pat []
  | c :: cs => beginsWith pat (c :: cs) || subOccurs pat cs

/-- The shared shape of strategies 3 and 4 of `getEntry`: scan the map in
insertion order and return the first entry whose key has at least `minLen`
characters and occurs inside the normalized input. -/
def findFuzzy (minLen : Nat) (normalized : List Char) :
    List (List Char × CCFEntry) → Option CCFEntry
  | [] => none
  | (key, value) :: rest =>
    if minLen ≤ key.length ∧ subOccurs key normalized then some value
    else findFuzzy minLen normalized rest

/-- `CCFRankService.getEntry`: `null` for an empty name, otherwise the
normalized input is tried against exact abbreviation lookup, exact full-name
lookup, fuzzy abbreviation containment (keys of length ≥ 4), and fuzzy
full-name containment (keys of length ≥ 20), returning on the first success. -/
def getEntry (idx : RefIndex) (name : List Char) : Option CCFEntry :=
  if name = [] then none
  else
    let normalized := normalize name
    match mapGet normalized idx.abbrsMap with
    | some entry => some entry
    | none =>
      match mapGet normalized idx.fullNamesMap with
      | some entry => some entry
      | none =>
        match findFuzzy 4 normalized idx.abbrsMap with
        | some entry => some entry
        | none => findFuzzy 20 normalized idx.fullNamesMap

/-- `CCFRankService.getRank`: the matched entry's rank, or `null`. -/
def getRank (idx : RefIndex) (name : List Char) : Option Rank :=
  (getEntry idx name).map (fun e => e.rank)

/-- Append an element to a duplicate-free list if absent, as JS
`Set.prototype.add`. -/
def setAdd (x : Nat) (s : List Nat) : List Nat :=
  if x ∈ s then s else s ++ [x]

/-- Remove an element, as JS `Set.prototype.delete`. -/
def setRemove (x : Nat) : List Nat → List Nat
  | [] => []
  | y :: rest => if y = x then setRemove x rest else y :: setRemove x rest

/-- The in-memory state of `ManualCCFRankService`: the manual-rank map
(`cache`) and the ignore set (`ignoreSet`).  The `saveToStorage` persistence
call after each mutation writes this state out unchanged and is host glue, so
it does not appear in the model. -/
structure ManualState where
  cache : List (Nat × Rank)
  ignoreSet : List Nat
deriving DecidableEq

/-- `ManualCCFRankService.setRank`: store the rank and drop the item from the
ignore set. -/
def ManualState.setRank (s : ManualState) (itemID : Nat) (rank : Rank) : ManualState :=
  { cache := mapSet itemID rank s.cache, ignoreSet := setRemove itemID s.ignoreSet }

/-- `ManualCCFRankService.getRank`: the stored rank or `null` (rank strings
are never empty, so the `|| null` coercion only maps `undefined` to `null`). -/
def ManualState.getRank (s : ManualState) (itemID : Nat) : Option Rank :=
  mapGet itemID s.cache

/-- `ManualCCFRankService.clearRank`: drop the item from both the manual-rank
map and the ignore set. -/
def ManualState.clearRank (s : ManualState) (itemID : Nat) : ManualState :=
  { cache := mapDelete itemID s.cache, ignoreSet := setRemove itemID s.ignoreSet }

/-- `ManualCCFRankService.hasManualRank`. -/
def ManualState.hasManualRank (s : ManualState) (itemID : Nat) : Bool :=
  (mapGet itemID s.cache).isSome

/-- `ManualCCFRankService.ignoreItem`: add the item to the ignore set and drop
any stored manual rank. -/
def ManualState.ignoreItem (s : ManualState) (itemID : Nat) : ManualState :=
  { cache := mapDelete itemID s.cache, ignoreSet := setAdd itemID s.ignoreSet }

/-- `ManualCCFRankService.isIgnored`. -/
def ManualState.isIgnored (s : ManualState) (itemID : Nat) : Bool :=
  decide (itemID ∈ s.ignoreSet)

/-- One user action on the manual-override store (the three mutating methods). -/
inductive MOp where
  | setR (itemID : Nat) (rank : Rank)
  | clearR (itemID : Nat)
  | ignoreR (itemID : Nat)

/-- Apply one operation to the store state. -/
def applyOp (s : ManualState) : MOp → ManualState
  | MOp.setR itemID rank => s.setRank itemID rank
  | MOp.clearR itemID => s.clearRank itemID
  | MOp.ignoreR itemID => s.ignoreItem itemID

/-- Apply a sequence of operations in order. -/
def runOps (s : ManualState) : List MOp → ManualState
  | [] => s
  | op :: rest => runOps (applyOp s op) rest

/-- Mutual exclusivity of the two override states: no item simultaneously has
a stored manual rank and ignored status. -/
def Exclusive (s : ManualState) : Prop :=
  ∀ itemID : Nat, s.getRank itemID = none ∨ s.isIgnored itemID = false

/-- The CCF-rank column `dataProvider` of `CCFRankFactory.registerCCFColumn`,
as a function of the override state, the item id, and the rank the Matcher
produces for the item (`ccfService.getRankFromItem(item)` is a function of the
item only, abstracted here as `matcherRank`): ignored items display nothing;
otherwise a stored manual rank wins; otherwise the Matcher result is shown,
with `""` for `null`. -/
def ccfColumnProvider (ms : ManualState) (itemID : Nat) (matcherRank : Option Rank) :
    List Char :=
  if ms.isIgnored itemID then []
  else
    match ms.getRank itemID with
    | some r => rankChars r
    | none =>
      match matcherRank with
      | some r => rankChars r
      | none => []

/-- The bibliographic fields of a Zotero item that `getEntryFromItem` reads:
the type tag and the four free-text fields (absent fields read as `""`). -/
structure ZItem where
  itemType : List Char
  proceedingsTitle : List Char
  publicationTitle : List Char
  conferenceName : List Char
  title : List Char

/-- One guarded matcher invocation of `getEntryFromItem`:
`if (field) { const entry = this.getEntry(field); if (entry) return entry; }`. -/
def tryField (idx : RefIndex) (field : List Char) : Option CCFEntry :=
  if field = [] then none else getEntry idx field

/-- The capture group of the title regex `\(([A-Z]+[']?\d*)\)` when it matches
immediately after an opening parenthesis: a maximal run of uppercase letters,
an optional apostrophe, a maximal digit run, and the closing parenthesis.  No
backtracking arises: none of the subsequent required characters is an
uppercase letter, and if the optional apostrophe is consumed but the rest
fails, the apostrophe-free alternative fails too (an apostrophe is neither a
digit nor `)`). -/
def parenCandidate (l : List Char) : Option (List Char) :=
  let letters := l.takeWhile Char.isUpper
  if letters.isEmpty then none
  else
    match l.drop letters.length with
    | q :: r2 =>
      if q = quoteChar then
        let ds := r2.takeWhile Char.isDigit
        match r2.drop ds.length with
        | d :: _ => if d = ')' then some (letters ++ q :: ds) else none
        | [] => none
      else
        let ds := (q :: r2).takeWhile Char.isDigit
        match (q :: r2).drop ds.length with
        | d :: _ => if d = ')' then some (letters ++ ds) else none
        | [] => none
    | [] => none

/-- Leftmost match of `title.match(/\(([A-Z]+[']?\d*)\)/)`: scan left to
right, attempting the pattern at each opening parenthesis, and return the
first capture group found. -/
def findParenToken : List Char → Option (List Char)
  | [] => none
  | d :: rest =>
    if d = '(' then
      match parenCandidate rest with
      | some cap => some cap
      | none => findParenToken rest
    else findParenToken rest

/-- The item type tag `"conferencePaper"`. -/
def confPaperType : List Char := "conferencePaper".data

/-- The item type tag `"journalArticle"`. -/
def journalType : List Char := "journalArticle".data

/-- `CCFRankService.getEntryFromItem`: for a conference paper try the
proceedings title, the publication title, and the conference name in order;
for a journal article try the publication title; then, for every type, the
generic publication-title attempt followed by the parenthesized-token fallback
on the article title (`match[1].replace(/['].*/, "")` drops everything from
the first apostrophe of the capture). -/
def getEntryFromItem (idx : RefIndex) (item : ZItem) : Option CCFEntry :=
  let confStep : Option CCFEntry :=
    if item.itemType = confPaperType then
      match tryField idx item.proceedingsTitle with
      | some entry => some entry
      | none =>
        match tryField idx item.publicationTitle with
        | some entry => some entry
        | none => tryField idx item.conferenceName
    else none
  match confStep with
  | some entry => some entry
  | none =>
    let journalStep : Option CCFEntry :=
      if item.itemType = journalType then tryField idx item.publicationTitle
      else none
    match journalStep with
    | some entry => some entry
    | none =>
      match tryField idx item.publicationTitle with
      | some entry => some entry
      | none =>
        if item.title = [] then none
        else
          match findParenToken item.title with
          | some cap => getEntry idx (cap.takeWhile (fun c => c != quoteChar))
          | none => none

/-- `CCFRankService.getRankFromItem`. -/
def getRankFromItem (idx : RefIndex) (item : ZItem) : Option Rank :=
  (getEntryFromItem idx item).map (fun e => e.rank)

/-- `CCFRankService.getCategoryFromItem`. -/
def getCategoryFromItem (idx : RefIndex) (item : ZItem) : Option (List Char) :=
  (getEntryFromItem idx item).map (fun e => e.category)

/-- The abbreviation key of an entry, as registered by the constructor. -/
def keyAbbr (e : CCFEntry) : List Char := toLowerList e.abbr

/-- The full-name key of an entry, as registered by the constructor. -/
def keyFull (e : CCFEntry) : List Char := toLowerList e.fullName

/-- One map of the constructor's index-building pass in isolation: fold the
table into an association map under the given key function. -/
def foldKey (key : CCFEntry → List Char) (m0 : List (List Char × CCFEntry)) :
    List CCFEntry → List (List Char × CCFEntry)
  | [] => m0
  | e :: rest => foldKey key (mapSet (key e) e m0) rest

/-- A representative conference entry, for concrete witnesses. -/
def cvprEntry : CCFEntry :=
  { abbr := "CVPR".data,
    fullName := "IEEE/CVF Conference on Computer Vision and Pattern Recognition".data,
    rank := Rank.A,
    category := "AI".data }

/-- A second representative conference entry, for concrete witnesses. -/
def aaaiEntry : CCFEntry :=
  { abbr := "AAAI".data,
    fullName := "AAAI Conference on Artificial Intelligence".data,
    rank := Rank.A,
    category := "AI".data }

/-- A representative journal entry, for concrete witnesses. -/
def tocsEntry : CCFEntry :=
  { abbr := "TOCS".data,
    fullName := "ACM Transactions on Computer Systems".data,
    rank := Rank.A,
    category := "Systems".data }

/-- A conference entry whose abbreviation collides with `shadowedJournal`'s
full name, exhibiting the priority of exact abbreviation lookup. -/
def shadowConf : CCFEntry :=
  { abbr := "abcd".data, fullName := "shadow conference".data,
    rank := Rank.A, category := "x".data }

/-- A journal entry whose full name equals `shadowConf`'s abbreviation after
lowercasing. -/
def shadowedJournal : CCFEntry :=
  { abbr := "zzzz".data, fullName := "abcd".data,
    rank := Rank.B, category := "y".data }

/-- A conference entry whose four-character abbreviation is a substring of
`iccvEntry`'s full name, for exercising strategy order. -/
def visiConf : CCFEntry :=
  { abbr := "visi".data, fullName := "visi symposium".data,
    rank := Rank.C, category := "x".data }

/-- A journal entry with a long full name containing `visiConf`'s
abbreviation as a substring. -/
def iccvEntry : CCFEntry :=
  { abbr := "ICCV".data, fullName := "International Conference on Computer Vision".data,
    rank := Rank.A, category := "AI".data }

/-! Helper lemmas about the association-map and set primitives. -/

theorem mapGet_mapSet_self {κ υ : Type} [DecidableEq κ] (k : κ) (v : υ) (m : List (κ × υ)) :
    mapGet k (mapSet k v m) = some v := by
  induction m with
  | nil => simp [mapSet, mapGet]
  | cons p rest ih =>
    obtain ⟨k', v'⟩ := p
    by_cases h : k' = k
    · simp [mapSet, mapGet, h]
    · simp [mapSet, mapGet, h, ih]

theorem mapGet_mapSet_ne {κ υ : Type} [DecidableEq κ] {k' k : κ} (v : υ) (m : List (κ × υ))
    (h : k' ≠ k) : mapGet k' (mapSet k v m) = mapGet k' m := by
  induction m with
  | nil => simp [mapSet, mapGet, Ne.symm h]
  | cons p rest ih =>
    obtain ⟨k0, v0⟩ := p
    by_cases h0 : k0 = k
    · subst h0
      simp [mapSet, mapGet, h, Ne.symm h]
    · by_cases h1 : k0 = k'
      · simp [mapSet, mapGet, h0, h1, h]
      · simp [mapSet, mapGet, h0, h1, ih]

theorem mem_of_mem_mapSet {κ υ : Type} [DecidableEq κ] {p : κ × υ} {k : κ} {v : υ}
    {m : List (κ × υ)} (h : p ∈ mapSet k v m) : p = (k, v) ∨ p ∈ m := by
  induction m with
  | nil => simpa [mapSet] using h
  | cons q rest ih =>
    obtain ⟨k0, v0⟩ := q
    by_cases h0 : k0 = k
    · simp only [mapSet, if_pos h0, List.mem_cons] at h
      rcases h with h | h
      · exact Or.inl h
      · exact Or.inr (List.mem_cons_of_mem _ h)
    · simp only [mapSet, if_neg h0, List.mem_cons] at h
      rcases h with h | h
      · exact Or.inr (by simp [h])
      · rcases ih h with h' | h'
        · exact Or.inl h'
        · exact Or.inr (List.mem_cons_of_mem _ h')

theorem mapGet_mapDelete_self {κ υ : Type} [DecidableEq κ] (k : κ) (m : List (κ × υ)) :
    mapGet k (mapDelete k m) = none := by
  induction m with
  | nil => simp [mapDelete, mapGet]
  | cons p rest ih =>
    obtain ⟨k0, v0⟩ := p
    by_cases h0 : k0 = k
    · simp [mapDelete, h0, ih]
    · simp [mapDelete, mapGet, h0, ih]

theorem mapGet_mapDelete_ne {κ υ : Type} [DecidableEq κ] {k' k : κ} (m : List (κ × υ))
    (h : k' ≠ k) : mapGet k' (mapDelete k m) = mapGet k' m := by
  induction m with
  | nil => simp [mapDelete]
  | cons p rest ih =>
    obtain ⟨k0, v0⟩ := p
    by_cases h0 : k0 = k
    · subst h0
      simp [mapDelete, mapGet, Ne.symm h, ih]
    · by_cases h1 : k0 = k'
      · simp [mapDelete, mapGet, h0, h1, h]
      · simp [mapDelete, mapGet, h0, h1, ih]

theorem not_mem_setRemove_self (x : Nat) (s : List Nat) : x ∉ setRemove x s := by
  induction s with
  | nil => simp [setRemove]
  | cons y rest ih =>
    by_cases h : y = x
    · simpa [setRemove, h] using ih
    · simp [setRemove, h, ih, Ne.symm h]

theorem mem_setRemove_ne {y x : Nat} (s : List Nat) (h : y ≠ x) :
    y ∈ setRemove x s ↔ y ∈ s := by
  induction s with
  | nil => simp [setRemove]
  | cons z rest ih =>
    by_cases h0 : z = x
    · subst h0
      simp [setRemove, ih, h]
    · simp [setRemove, h0, List.mem_cons, ih]

theorem mem_setAdd {y x : Nat} (s : List Nat) : y ∈ setAdd x s ↔ y = x ∨ y ∈ s := by
  by_cases h : x ∈ s
  · simp only [setAdd, if_pos h]
    constructor
    · exact Or.inr
    · rintro (rfl | hy)
      · exact h
      · exact hy
  · simp [setAdd, if_neg h, List.mem_append, or_comm]

/-! Helper lemmas about the constructor's index-building fold. -/

theorem buildIndex_maps (confs journals : List CCFEntry) :
    (buildIndex confs journals).abbrsMap = foldKey keyAbbr [] (confs ++ journals) ∧
    (buildIndex confs journals).fullNamesMap = foldKey keyFull [] (confs ++ journals) := by
  have main : ∀ (l : List CCFEntry) (i0 : RefIndex),
      (l.foldl (fun idx entry =>
        { abbrsMap := mapSet (toLowerList entry.abbr) entry idx.abbrsMap,
          fullNamesMap := mapSet (toLowerList entry.fullName) entry idx.fullNamesMap }) i0).abbrsMap
        = foldKey keyAbbr i0.abbrsMap l ∧
      (l.foldl (fun idx entry =>
        { abbrsMap := mapSet (toLowerList entry.abbr) entry idx.abbrsMap,
          fullNamesMap := mapSet (toLowerList entry.fullName) entry idx.fullNamesMap }) i0).fullNamesMap
        = foldKey keyFull i0.fullNamesMap l := by
    intro l
    induction l with
    | nil => intro i0; simp [foldKey]
    | cons e rest ih =>
      intro i0
      simpa [foldKey, keyAbbr, keyFull] using ih
        { abbrsMap := mapSet (toLowerList e.abbr) e i0.abbrsMap,
          fullNamesMap := mapSet (toLowerList e.fullName) e i0.fullNamesMap }
  exact main (confs ++ journals) { abbrsMap := [], fullNamesMap := [] }

theorem mapGet_foldKey_of_not_mem (key : CCFEntry → List Char) {k : List Char}
    (l : List CCFEntry) (m0 : List (List Char × CCFEntry))
    (h : ∀ e ∈ l, key e ≠ k) : mapGet k (foldKey key m0 l) = mapGet k m0 := by
  induction l generalizing m0 with
  | nil => rfl
  | cons e rest ih =>
    have he : key e ≠ k := h e (List.mem_cons_self e rest)
    rw [foldKey, ih _ (fun e' he' => h e' (List.mem_cons_of_mem _ he')),
      mapGet_mapSet_ne _ _ (Ne.symm he)]

theorem mapGet_foldKey_keep (key : CCFEntry → List Char) {k : List Char} {E : CCFEntry}
    (l : List CCFEntry) (m0 : List (List Char × CCFEntry))
    (h0 : mapGet k m0 = some E) (h : ∀ e ∈ l, key e = k → e = E) :
    mapGet k (foldKey key m0 l) = some E := by
  induction l generalizing m0 with
  | nil => exact h0
  | cons e rest ih =>
    rw [foldKey]
    refine ih _ ?_ (fun e' he' => h e' (List.mem_cons_of_mem _ he'))
    by_cases hk : key e = k
    · have : e = E := h e (List.mem_cons_self e rest) hk
      subst this
      rw [hk, mapGet_mapSet_self]
    · rw [mapGet_mapSet_ne _ _ (Ne.symm hk)]
      exact h0

theorem mapGet_foldKey_of_mem (key : CCFEntry → List Char) {E : CCFEntry}
    (l : List CCFEntry) (m0 : List (List Char × CCFEntry))
    (hmem : E ∈ l) (huniq : ∀ e ∈ l, key e = key E → e = E) :
    mapGet (key E) (foldKey key m0 l) = some E := by
  induction l generalizing m0 with
  | nil => cases hmem
  | cons e rest ih =>
    rw [foldKey]
    rcases List.mem_cons.mp hmem with rfl | hrest
    · exact mapGet_foldKey_keep key rest _ (mapGet_mapSet_self _ _ _)
        (fun e' he' => huniq e' (List.mem_cons_of_mem _ he'))
    · exact ih _ hrest (fun e' he' => huniq e' (List.mem_cons_of_mem _ he'))

theorem key_of_mem_foldKey (key : CCFEntry → List Char) {p : List Char × CCFEntry}
    (l : List CCFEntry) (m0 : List (List Char × CCFEntry))
    (h : p ∈ foldKey key m0 l) : p.1 = key p.2 ∨ p ∈ m0 := by
  induction l generalizing m0 with
  | nil => exact Or.inr h
  | cons e rest ih =>
    rcases ih _ h with h' | h'
    · exact Or.inl h'
    · rcases mem_of_mem_mapSet h' with h'' | h''
      · subst h''
        exact Or.inl rfl
      · exact Or.inr h''

theorem findFuzzy_mem {minLen : Nat} {normalized : List Char} {v : CCFEntry}
    (m : List (List Char × CCFEntry)) (h : findFuzzy minLen normalized m = some v) :
    ∃ k, (k, v) ∈ m ∧ minLen ≤ k.length ∧ subOccurs k normalized = true := by
  induction m with
  | nil => cases h
  | cons p rest ih =>
    obtain ⟨key, value⟩ := p
    by_cases hc : minLen ≤ key.length ∧ subOccurs key normalized
    · rw [findFuzzy, if_pos hc] at h
      cases h
      exact ⟨key, List.mem_cons_self _ _, hc.1, hc.2⟩
    · rw [findFuzzy, if_neg hc] at h
      obtain ⟨k, hk, hlen, hsub⟩ := ih h
      exact ⟨k, List.mem_cons_of_mem _ hk, hlen, hsub⟩

/-! Helper lemmas about the normalizer: every strip step only removes
characters, trimming is idempotent, and ASCII lowercasing is idempotent. -/

theorem mem_of_mem_trimLeftWS {c : Char} {l : List Char} (h : c ∈ trimLeftWS l) : c ∈ l :=
  (List.dropWhile_sublist _).subset h

theorem mem_of_mem_trimRightWS {c : Char} {l : List Char} (h : c ∈ trimRightWS l) : c ∈ l := by
  rw [trimRightWS, List.mem_reverse] at h
  exact List.mem_reverse.mp ((List.dropWhile_sublist _).subset h)

theorem mem_of_mem_trimWS {c : Char} {l : List Char} (h : c ∈ trimWS l) : c ∈ l :=
  mem_of_mem_trimLeftWS (mem_of_mem_trimRightWS h)

theorem mem_of_stripLit :
    ∀ (p l r : List Char), stripLit p l = some r → ∀ c ∈ r, c ∈ l := by
  intro p
  induction p with
  | nil =>
    intro l r h c hc
    rw [stripLit] at h
    cases h
    exact hc
  | cons p0 ps ih =>
    intro l r h c hc
    cases l with
    | nil => cases h
    | cons c0 cs =>
      rw [stripLit] at h
      by_cases he : p0 = c0
      · rw [if_pos he] at h
        exact List.mem_cons_of_mem _ (ih cs r h c hc)
      · rw [if_neg he] at h
        cases h

theorem mem_of_stripYearTail {c : Char} (l r2 : List Char)
    (hsub : ∀ d ∈ r2, d ∈ l)
    (hc : c ∈ (if 4 ≤ r2.length ∧ (r2.take 4).all Char.isDigit then
      match r2.drop 4 with
      | c0 :: rest =>
        if isWS c0 then
          let r4 := (c0 :: rest).dropWhile isWS
          match stripLit ("on".data) r4 with
          | some r5 =>
            match r5 with
            | d :: _ => if isWS d then r5.dropWhile isWS else r4
            | [] => r4
          | none => r4
        else l
      | [] => l
    else l)) : c ∈ l := by
  by_cases h1 : 4 ≤ r2.length ∧ (r2.take 4).all Char.isDigit
  · rw [if_pos h1] at hc
    cases h2 : r2.drop 4 with
    | nil => rw [h2] at hc; exact hc
    | cons c0 rest =>
      rw [h2] at hc
      simp only at hc
      have hz : ∀ d ∈ (c0 :: rest).dropWhile isWS, d ∈ l := by
        intro d hd
        have h' : d ∈ c0 :: rest := (List.dropWhile_sublist _).subset hd
        rw [← h2] at h'
        exact hsub d (List.mem_of_mem_drop h')
      by_cases h3 : isWS c0
      · rw [if_pos h3] at hc
        cases h4 : stripLit ("on".data) ((c0 :: rest).dropWhile isWS) with
        | none => rw [h4] at hc; exact hz c hc
        | some r5 =>
          rw [h4] at hc
          simp only at hc
          cases r5 with
          | nil => exact hz c hc
          | cons d rest5 =>
            simp only at hc
            by_cases h5 : isWS d
            · rw [if_pos h5] at hc
              have h6 : c ∈ d :: rest5 := (List.dropWhile_sublist _).subset hc
              exact hz c (mem_of_stripLit _ _ _ h4 c h6)
            · rw [if_neg h5] at hc
              exact hz c hc
      · rw [if_neg h3] at hc; exact hc
  · rw [if_neg h1] at hc; exact hc

theorem mem_of_stripProcYearPre {c : Char} (l : List Char)
    (hc : c ∈ stripProcYearPre l) : c ∈ l := by
  rw [stripProcYearPre] at hc
  cases h1 : stripLit ("proceedings of ".data) l with
  | none => rw [h1] at hc; exact hc
  | some r1 =>
    rw [h1] at hc
    simp only at hc
    cases h2 : stripLit ("the ".data) r1 with
    | none =>
      rw [h2] at hc
      simp only at hc
      exact mem_of_stripYearTail l r1 (fun d hd => mem_of_stripLit _ _ _ h1 d hd) hc
    | some r2 =>
      rw [h2] at hc
      simp only at hc
      exact mem_of_stripYearTail l r2
        (fun d hd => mem_of_stripLit _ _ _ h1 d (mem_of_stripLit _ _ _ h2 d hd)) hc

theorem mem_of_stripProcPre {c : Char} (l : List Char)
    (hc : c ∈ stripProcPre l) : c ∈ l := by
  rw [stripProcPre] at hc
  cases h1 : stripLit ("proceedings of ".data) l with
  | none => rw [h1] at hc; exact hc
  | some r1 =>
    rw [h1] at hc
    simp only at hc
    cases h2 : stripLit ("the ".data) r1 with
    | none =>
      rw [h2] at hc
      exact mem_of_stripLit _ _ _ h1 c hc
    | some r2 =>
      rw [h2] at hc
      exact mem_of_stripLit _ _ _ h1 c (mem_of_stripLit _ _ _ h2 c hc)

theorem mem_of_stripProcDotPre {c : Char} (l : List Char)
    (hc : c ∈ stripProcDotPre l) : c ∈ l := by
  rw [stripProcDotPre] at hc
  cases h1 : stripLit ("proc".data) l with
  | none => rw [h1] at hc; exact hc
  | some r1 =>
    rw [h1] at hc
    simp only at hc
    have hr1 : ∀ d ∈ r1, d ∈ l := fun d hd => mem_of_stripLit _ _ _ h1 d hd
    have hr2 : ∀ d ∈ (match r1 with
        | d :: t => if d = '.' then t else r1
        | [] => r1), d ∈ l := by
      intro d hd
      cases r1 with
      | nil => exact hr1 d hd
      | cons d0 t =>
        simp only at hd
        by_cases hdot : d0 = '.'
        · rw [if_pos hdot] at hd
          exact hr1 d (List.mem_cons_of_mem _ hd)
        · rw [if_neg hdot] at hd
          exact hr1 d hd
    cases h3 : stripLit (" of ".data) (match r1 with
        | d :: t => if d = '.' then t else r1
        | [] => r1) with
    | none => rw [h3] at hc; exact hc
    | some r3 =>
      rw [h3] at hc
      simp only at hc
      cases h4 : stripLit ("the ".data) r3 with
      | none =>
        rw [h4] at hc
        exact hr2 c (mem_of_stripLit _ _ _ h3 c hc)
      | some r4 =>
        rw [h4] at hc
        exact hr2 c (mem_of_stripLit _ _ _ h3 c (mem_of_stripLit _ _ _ h4 c hc))

theorem mem_of_stripQuoteYearPre {c : Char} (l : List Char)
    (hc : c ∈ stripQuoteYearPre l) : c ∈ l := by
  rw [stripQuoteYearPre] at hc
  simp only at hc
  by_cases h1 : (l.takeWhile Char.isLower).isEmpty
  · rw [if_pos h1] at hc; exact hc
  · rw [if_neg h1] at hc
    cases h2 : (l.dropWhile Char.isLower).dropWhile isWS with
    | nil => rw [h2] at hc; exact hc
    | cons q r3 =>
      rw [h2] at hc
      simp only at hc
      by_cases h3 : q = quoteChar
      · rw [if_pos h3] at hc
        by_cases h4 : 2 ≤ (r3.takeWhile Char.isDigit).length ∧
            (r3.takeWhile Char.isDigit).length ≤ 4
        · rw [if_pos h4] at hc
          cases h5 : r3.drop (r3.takeWhile Char.isDigit).length with
          | nil => rw [h5] at hc; exact hc
          | cons d r4 =>
            rw [h5] at hc
            simp only at hc
            by_cases h6 : d = ':'
            · rw [if_pos h6] at hc
              have h7 : c ∈ r4 := (List.dropWhile_sublist _).subset hc
              have h8 : c ∈ r3 := by
                have : c ∈ d :: r4 := List.mem_cons_of_mem _ h7
                rw [← h5] at this
                exact List.mem_of_mem_drop this
              have h9 : c ∈ (l.dropWhile Char.isLower).dropWhile isWS := by
                rw [h2]
                exact List.mem_cons_of_mem _ h8
              exact (List.dropWhile_sublist _).subset ((List.dropWhile_sublist _).subset h9)
            · rw [if_neg h6] at hc
              exact hc
        · rw [if_neg h4] at hc; exact hc
      · rw [if_neg h3] at hc; exact hc

theorem mem_of_stripLeadYear {c : Char} (l : List Char)
    (hc : c ∈ stripLeadYear l) : c ∈ l := by
  rw [stripLeadYear] at hc
  by_cases h1 : 4 ≤ l.length ∧ (l.take 4).all Char.isDigit
  · rw [if_pos h1] at hc
    cases h2 : l.drop 4 with
    | nil => rw [h2] at hc; exact hc
    | cons c0 rest =>
      rw [h2] at hc
      simp only at hc
      by_cases h3 : isWS c0
      · rw [if_pos h3] at hc
        have h4 : c ∈ c0 :: rest := (List.dropWhile_sublist _).subset hc
        rw [← h2] at h4
        exact List.mem_of_mem_drop h4
      · rw [if_neg h3] at hc; exact hc
  · rw [if_neg h1] at hc; exact hc

theorem mem_of_stripTrailYear {c : Char} (l : List Char)
    (hc : c ∈ stripTrailYear l) : c ∈ l := by
  rw [stripTrailYear] at hc
  by_cases h1 : 4 ≤ l.reverse.length ∧ (l.reverse.take 4).all Char.isDigit
  · rw [if_pos h1] at hc
    rw [List.mem_reverse] at hc
    have h2 : c ∈ l.reverse := List.mem_of_mem_drop ((List.dropWhile_sublist _).subset hc)
    exact List.mem_reverse.mp h2
  · rw [if_neg h1] at hc; exact hc

theorem mem_of_stripTrailParen {c : Char} (l : List Char)
    (hc : c ∈ stripTrailParen l) : c ∈ l := by
  rw [stripTrailParen] at hc
  cases hrev : l.reverse with
  | nil => rw [hrev] at hc; exact hc
  | cons d rest =>
    rw [hrev] at hc
    simp only at hc
    by_cases h1 : d = ')'
    · rw [if_pos h1] at hc
      by_cases h2 : (rest.takeWhile (fun c => c != ')')).reverse.any (fun c => c == '(')
      · rw [if_pos h2] at hc
        rw [List.mem_reverse] at hc
        have hsplit : c ∈ ((rest.takeWhile (fun c => c != ')')).reverse.takeWhile
              (fun c => c != '(')).reverse ++
              rest.drop (rest.takeWhile (fun c => c != ')')).length :=
          (List.dropWhile_sublist _).subset hc
        have hrest : c ∈ rest := by
          rcases List.mem_append.mp hsplit with h | h
          · rw [List.mem_reverse] at h
            have h' := (List.takeWhile_sublist _).subset h
            rw [List.mem_reverse] at h'
            exact (List.takeWhile_sublist _).subset h'
          · exact List.mem_of_mem_drop h
        have : c ∈ l.reverse := by
          rw [hrev]
          exact List.mem_cons_of_mem _ hrest
        exact List.mem_reverse.mp this
      · rw [if_neg h2] at hc; exact hc
    · rw [if_neg h1] at hc; exact hc

theorem mem_of_stripPipeline {c : Char} (l : List Char)
    (hc : c ∈ stripPipeline l) : c ∈ l := by
  rw [stripPipeline] at hc
  exact mem_of_stripProcYearPre _ (mem_of_stripProcPre _ (mem_of_stripProcDotPre _
    (mem_of_stripQuoteYearPre _ (mem_of_stripLeadYear _ (mem_of_stripTrailYear _
      (mem_of_stripTrailParen _ hc))))))

theorem charLowerShift : ∀ n, n < 91 → 65 ≤ n → (Char.ofNat (n + 32)).toNat = n + 32 := by
  decide

theorem toLower_toLower (c : Char) : Char.toLower (Char.toLower c) = Char.toLower c := by
  simp only [Char.toLower]
  by_cases h : c.toNat ≥ 65 ∧ c.toNat ≤ 90
  · rw [if_pos h, if_neg]
    rw [charLowerShift c.toNat (by omega) h.1]
    omega
  · rw [if_neg h, if_neg h]

theorem toLowerList_eq_self {l : List Char} (h : ∀ c ∈ l, Char.toLower c = c) :
    toLowerList l = l := by
  induction l with
  | nil => rfl
  | cons a t ih =>
    have ha := h a (List.mem_cons_self a t)
    have ht : toLowerList t = t := ih (fun c hc => h c (List.mem_cons_of_mem _ hc))
    simp only [toLowerList, List.map_cons] at ht ⊢
    rw [ha, ht]

theorem toLower_eq_of_mem_normalize {s : List Char} {c : Char}
    (hc : c ∈ normalize s) : Char.toLower c = c := by
  rw [normalize] at hc
  have h1 : c ∈ toLowerList (trimWS s) :=
    mem_of_stripPipeline _ (mem_of_mem_trimWS hc)
  obtain ⟨d, _, rfl⟩ := List.mem_map.mp h1
  exact toLower_toLower d

theorem dropWhile_eq_self_of_append {p : Char → Bool} (x t : List Char)
    (hw : (x ++ t).dropWhile p = x ++ t) : x.dropWhile p = x := by
  cases x with
  | nil => rfl
  | cons a x' =>
    by_cases hpa : p a
    · exfalso
      rw [List.cons_append, List.dropWhile_cons, if_pos hpa] at hw
      have hlen := congrArg List.length hw
      have hle := (List.dropWhile_sublist (p := p) (l := x' ++ t)).length_le
      simp only [List.length_cons] at hlen
      omega
    · rw [List.dropWhile_cons, if_neg hpa]

theorem trimRightWS_eq_rdropWhile (l : List Char) : trimRightWS l = List.rdropWhile isWS l := rfl

theorem trimWS_idem (l : List Char) : trimWS (trimWS l) = trimWS l := by
  show trimRightWS (trimLeftWS (trimRightWS (trimLeftWS l))) = trimRightWS (trimLeftWS l)
  have hpre : trimRightWS (trimLeftWS l) <+: trimLeftWS l := by
    rw [trimRightWS_eq_rdropWhile]
    exact List.rdropWhile_prefix _ _
  obtain ⟨t, ht⟩ := hpre
  have h1 : trimLeftWS (trimRightWS (trimLeftWS l)) = trimRightWS (trimLeftWS l) := by
    show (trimRightWS (trimLeftWS l)).dropWhile isWS = trimRightWS (trimLeftWS l)
    refine dropWhile_eq_self_of_append _ t ?_
    rw [ht]
    show (trimLeftWS l).dropWhile isWS = trimLeftWS l
    exact List.dropWhile_idempotent isWS l
  rw [h1, trimRightWS_eq_rdropWhile, trimRightWS_eq_rdropWhile]
  exact List.rdropWhile_idempotent isWS _

theorem trimWS_normalize (s : List Char) : trimWS (normalize s) = normalize s := by
  rw [normalize]
  exact trimWS_idem _

theorem toLowerList_normalize (s : List Char) : toLowerList (normalize s) = normalize s :=
  toLowerList_eq_self (fun _ hc => toLower_eq_of_mem_normalize hc)

theorem normalize_normalize (s : List Char) :
    normalize (normalize s) = trimWS (stripPipeline (normalize s)) := by
  conv_lhs => rw [normalize]
  rw [trimWS_normalize, toLowerList_normalize]

/-! Further helper lemmas for the claims about the index and the manual
override store. -/

theorem getLast?_cons_elim {α : Type} (a : α) (xs : List α) :
    (a :: xs).getLast? = match xs.getLast? with
      | some y => some y
      | none => some a := by
  cases xs with
  | nil => rfl
  | cons b t =>
    rw [List.getLast?_cons_cons]
    cases h : (b :: t).getLast? with
    | none => simp at h
    | some y => rfl

theorem mapGet_foldKey_last (key : CCFEntry → List Char) (k : List Char)
    (l : List CCFEntry) (m0 : List (List Char × CCFEntry)) :
    mapGet k (foldKey key m0 l) =
      match (l.filter (fun e => key e == k)).getLast? with
      | some e => some e
      | none => mapGet k m0 := by
  induction l generalizing m0 with
  | nil => rfl
  | cons e rest ih =>
    rw [foldKey, ih]
    by_cases he : key e = k
    · rw [List.filter_cons_of_pos (by simpa using he), getLast?_cons_elim]
      cases h : (rest.filter (fun e => key e == k)).getLast? with
      | none =>
        subst he
        exact mapGet_mapSet_self _ _ _
      | some y => rfl
    · rw [List.filter_cons_of_neg (by simpa using he)]
      cases h : (rest.filter (fun e => key e == k)).getLast? with
      | none =>
        exact mapGet_mapSet_ne _ _ (fun hh => he hh.symm)
      | some y => rfl

theorem exclusive_applyOp {s : ManualState} (hs : Exclusive s) (op : MOp) :
    Exclusive (applyOp s op) := by
  cases op with
  | setR itemID rank =>
    intro j
    by_cases hj : j = itemID
    · subst hj
      right
      simp [applyOp, ManualState.setRank, ManualState.isIgnored, not_mem_setRemove_self]
    · rcases hs j with h | h
      · left
        simpa [applyOp, ManualState.setRank, ManualState.getRank,
          mapGet_mapSet_ne _ _ hj] using h
      · right
        simpa [applyOp, ManualState.setRank, ManualState.isIgnored,
          mem_setRemove_ne _ hj] using h
  | clearR itemID =>
    intro j
    by_cases hj : j = itemID
    · subst hj
      left
      simp [applyOp, ManualState.clearRank, ManualState.getRank, mapGet_mapDelete_self]
    · rcases hs j with h | h
      · left
        simpa [applyOp, ManualState.clearRank, ManualState.getRank,
          mapGet_mapDelete_ne _ hj] using h
      · right
        simpa [applyOp, ManualState.clearRank, ManualState.isIgnored,
          mem_setRemove_ne _ hj] using h
  | ignoreR itemID =>
    intro j
    by_cases hj : j = itemID
    · subst hj
      left
      simp [applyOp, ManualState.ignoreItem, ManualState.getRank, mapGet_mapDelete_self]
    · rcases hs j with h | h
      · left
        simpa [applyOp, ManualState.ignoreItem, ManualState.getRank,
          mapGet_mapDelete_ne _ hj] using h
      · right
        simp only [applyOp, ManualState.ignoreItem, ManualState.isIgnored] at h ⊢
        rw [decide_eq_false_iff_not] at h ⊢
        rw [mem_setAdd]
        rintro (rfl | hmem)
        · exact hj rfl
        · exact h hmem

theorem exclusive_runOps {s : ManualState} (hs : Exclusive s) (ops : List MOp) :
    Exclusive (runOps s ops) := by
  induction ops generalizing s with
  | nil => exact hs
  | cons op rest ih => exact ih (exclusive_applyOp hs op)

theorem exclusive_empty : Exclusive { cache := [], ignoreSet := [] } := by
  intro itemID
  left
  rfl

/-! The claims. -/

/-- C8: `getEntry` returns `null` for the empty input string, whatever the
index holds: the guard at the top of the function fires before normalization
or any lookup, and absence of a match is the value `none`, never an error
(the function is total). -/
theorem c8_empty_input (idx : RefIndex) : getEntry idx [] = none := by
  simp [getEntry]

/-- C9: index construction resolves duplicate lowercased keys by letting the
later entry of the table (conferences first, then journals) silently
overwrite the earlier one: the lookup of any key in either constructed map
returns exactly the last table entry carrying that lowercased key. -/
theorem c9_later_entry_wins (confs journals : List CCFEntry) (k : List Char) :
    mapGet k (buildIndex confs journals).abbrsMap =
      ((confs ++ journals).filter (fun e => keyAbbr e == k)).getLast? ∧
    mapGet k (buildIndex confs journals).fullNamesMap =
      ((confs ++ journals).filter (fun e => keyFull e == k)).getLast? := by
  obtain ⟨ha, hf⟩ := buildIndex_maps confs journals
  constructor
  · rw [ha, mapGet_foldKey_last]
    cases h : ((confs ++ journals).filter (fun e => keyAbbr e == k)).getLast? <;> rfl
  · rw [hf, mapGet_foldKey_last]
    cases h : ((confs ++ journals).filter (fun e => keyFull e == k)).getLast? <;> rfl

/-- C5: the manual-override store keeps stored ranks and ignored status
mutually exclusive: the exclusivity invariant is preserved by every sequence
of `setRank`/`clearRank`/`ignoreItem` operations, `setRank` removes the item
from the ignore set, `ignoreItem` removes any stored rank, and in particular
`setRank` immediately followed by `ignoreItem` on the same item leaves no
stored rank. -/
theorem c5_rank_ignore_exclusive (s : ManualState) (ops : List MOp) (itemID : Nat)
    (rank : Rank) :
    (Exclusive s → Exclusive (runOps s ops)) ∧
    (s.setRank itemID rank).isIgnored itemID = false ∧
    (s.ignoreItem itemID).getRank itemID = none ∧
    ((s.setRank itemID rank).ignoreItem itemID).getRank itemID = none := by
  refine ⟨fun hs => exclusive_runOps hs ops, ?_, ?_, ?_⟩
  · simp [ManualState.setRank, ManualState.isIgnored, not_mem_setRemove_self]
  · simp [ManualState.ignoreItem, ManualState.getRank, mapGet_mapDelete_self]
  · simp [ManualState.setRank, ManualState.ignoreItem, ManualState.getRank,
      mapGet_mapDelete_self]

/-- Witness for C5 at a concrete state and operation sequence. -/
theorem c5_rank_ignore_exclusive_witness :
    Exclusive { cache := [], ignoreSet := [] } ∧
    Exclusive (runOps { cache := [], ignoreSet := [] }
      [MOp.setR 1 Rank.A, MOp.ignoreR 1, MOp.setR 2 Rank.B]) ∧
    ((({ cache := [], ignoreSet := [] } : ManualState).setRank 4 Rank.C).ignoreItem 4).getRank 4
      = none :=
  ⟨exclusive_empty,
   (c5_rank_ignore_exclusive { cache := [], ignoreSet := [] }
      [MOp.setR 1 Rank.A, MOp.ignoreR 1, MOp.setR 2 Rank.B] 0 Rank.A).1 exclusive_empty,
   (c5_rank_ignore_exclusive { cache := [], ignoreSet := [] } [] 4 Rank.C).2.2.2⟩

/-- C10: `clearRank` removes the item from both the manual-rank map and the
ignore set, and leaves every other item's stored rank and ignored status
unchanged. -/
theorem c10_clearRank_scoped (s : ManualState) (itemID other : Nat) (h : other ≠ itemID) :
    (s.clearRank itemID).getRank itemID = none ∧
    (s.clearRank itemID).isIgnored itemID = false ∧
    (s.clearRank itemID).getRank other = s.getRank other ∧
    (s.clearRank itemID).isIgnored other = s.isIgnored other := by
  refine ⟨?_, ?_, ?_, ?_⟩
  · simp [ManualState.clearRank, ManualState.getRank, mapGet_mapDelete_self]
  · simp [ManualState.clearRank, ManualState.isIgnored, not_mem_setRemove_self]
  · simp [ManualState.clearRank, ManualState.getRank, mapGet_mapDelete_ne _ h]
  · simp [ManualState.clearRank, ManualState.isIgnored, mem_setRemove_ne _ h]

/-- Witness for C10 at a concrete state. -/
theorem c10_clearRank_scoped_witness :
    (2 : Nat) ≠ 1 ∧
    (({ cache := [(1, Rank.A), (2, Rank.B)], ignoreSet := [1, 3] } : ManualState).clearRank 1).getRank 1
       = none ∧
    (({ cache := [(1, Rank.A), (2, Rank.B)], ignoreSet := [1, 3] } : ManualState).clearRank 1).getRank 2
       = some Rank.B :=
  ⟨by decide,
   (c10_clearRank_scoped { cache := [(1, Rank.A), (2, Rank.B)], ignoreSet := [1, 3] }
      1 2 (by decide)).1,
   by
     have h := (c10_clearRank_scoped { cache := [(1, Rank.A), (2, Rank.B)], ignoreSet := [1, 3] }
        1 2 (by decide)).2.2.1
     rw [h]
     decide⟩

/-- C6: the CCF-rank column provider returns the empty string for every
ignored item regardless of the Matcher's result; for a non-ignored item with
a stored manual rank it returns that manual rank, again regardless of the
Matcher; only otherwise does it return the Matcher's result, with the empty
placeholder when the Matcher returns `null`. -/
theorem c6_provider_precedence (ms : ManualState) (itemID : Nat)
    (matcherRank : Option Rank) (r : Rank) :
    (ms.isIgnored itemID = true → ccfColumnProvider ms itemID matcherRank = []) ∧
    (ms.isIgnored itemID = false → ms.getRank itemID = some r →
      ccfColumnProvider ms itemID matcherRank = rankChars r) ∧
    (ms.isIgnored itemID = false → ms.getRank itemID = none →
      ccfColumnProvider ms itemID matcherRank =
        (match matcherRank with
         | some r' => rankChars r'
         | none => [])) := by
  refine ⟨fun hig => ?_, fun hig hr => ?_, fun hig hr => ?_⟩
  · simp [ccfColumnProvider, hig]
  · simp [ccfColumnProvider, hig, hr]
  · simp [ccfColumnProvider, hig, hr]

/-- Witness for C6 at concrete states: an ignored item shows nothing even
though the Matcher found rank A, and a manual B beats a Matcher A. -/
theorem c6_provider_precedence_witness :
    (({ cache := [(7, Rank.B)], ignoreSet := [3] } : ManualState).isIgnored 3 = true ∧
      ccfColumnProvider { cache := [(7, Rank.B)], ignoreSet := [3] } 3 (some Rank.A) = []) ∧
    (({ cache := [(7, Rank.B)], ignoreSet := [3] } : ManualState).isIgnored 7 = false ∧
      ({ cache := [(7, Rank.B)], ignoreSet := [3] } : ManualState).getRank 7 = some Rank.B ∧
      ccfColumnProvider { cache := [(7, Rank.B)], ignoreSet := [3] } 7 (some Rank.A) =
        rankChars Rank.B) :=
  ⟨⟨by decide,
    (c6_provider_precedence { cache := [(7, Rank.B)], ignoreSet := [3] } 3 (some Rank.A)
      Rank.B).1 (by decide)⟩,
   ⟨by decide, by decide,
    (c6_provider_precedence { cache := [(7, Rank.B)], ignoreSet := [3] } 7 (some Rank.A)
      Rank.B).2.1 (by decide) (by decide)⟩⟩

/-- C4: the fuzzy strategies respect their length guards, whatever the input:
strategy 3 never returns an entry whose lowercased abbreviation key is
shorter than 4 characters, and strategy 4 never returns an entry whose
lowercased full-name key is shorter than 20, even when the normalized input
contains the key. -/
theorem c4_fuzzy_length_guards (confs journals : List CCFEntry) (n : List Char)
    (v : CCFEntry) :
    (findFuzzy 4 n (buildIndex confs journals).abbrsMap = some v →
      4 ≤ (toLowerList v.abbr).length) ∧
    (findFuzzy 20 n (buildIndex confs journals).fullNamesMap = some v →
      20 ≤ (toLowerList v.fullName).length) := by
  obtain ⟨ha, hf⟩ := buildIndex_maps confs journals
  constructor
  · intro h
    rw [ha] at h
    obtain ⟨k, hk, hlen, -⟩ := findFuzzy_mem _ h
    rcases key_of_mem_foldKey keyAbbr _ _ hk with hkey | habs
    · rw [keyAbbr] at hkey
      simpa [← hkey] using hlen
    · cases habs
  · intro h
    rw [hf] at h
    obtain ⟨k, hk, hlen, -⟩ := findFuzzy_mem _ h
    rcases key_of_mem_foldKey keyFull _ _ hk with hkey | habs
    · rw [keyFull] at hkey
      simpa [← hkey] using hlen
    · cases habs

/-- Witness for C4 at concrete fuzzy matches. -/
theorem c4_fuzzy_length_guards_witness :
    (findFuzzy 4 ("cvpr 24".data) (buildIndex [cvprEntry] []).abbrsMap = some cvprEntry ∧
      4 ≤ (toLowerList cvprEntry.abbr).length) ∧
    (findFuzzy 20 ("the international conference on computer vision of 24".data)
        (buildIndex [] [iccvEntry]).fullNamesMap = some iccvEntry ∧
      20 ≤ (toLowerList iccvEntry.fullName).length) :=
  ⟨⟨by decide, (c4_fuzzy_length_guards [cvprEntry] [] ("cvpr 24".data) cvprEntry).1 (by decide)⟩,
   ⟨by decide, (c4_fuzzy_length_guards [] [iccvEntry]
      ("the international conference on computer vision of 24".data) iccvEntry).2 (by decide)⟩⟩

theorem tryField_eq_getEntry (idx : RefIndex) (f : List Char) :
    tryField idx f = getEntry idx f := by
  by_cases h : f = []
  · subst h
    simp [tryField, getEntry]
  · simp [tryField, h]

/-- C1: exactness round-trips for table entries.  For any table and any entry
`E` whose keys survive normalization unchanged (their lowercased forms are
fixed points of the strip pipeline), whose lowercased abbreviation and full
name are unique in the table, and whose full name collides with no
abbreviation key, `getEntry` maps `E.abbr` and `E.fullName` back to `E`. -/
theorem c1_exact_roundtrip (confs journals : List CCFEntry) (E : CCFEntry)
    (hmem : E ∈ confs ++ journals)
    (habbrNe : E.abbr ≠ [])
    (hfullNe : E.fullName ≠ [])
    (habbrNorm : normalize E.abbr = toLowerList E.abbr)
    (hfullNorm : normalize E.fullName = toLowerList E.fullName)
    (habbrUniq : ∀ e ∈ confs ++ journals, toLowerList e.abbr = toLowerList E.abbr → e = E)
    (hfullUniq : ∀ e ∈ confs ++ journals, toLowerList e.fullName = toLowerList E.fullName → e = E)
    (hcross : ∀ e ∈ confs ++ journals, toLowerList e.abbr ≠ toLowerList E.fullName) :
    getEntry (buildIndex confs journals) E.abbr = some E ∧
    getEntry (buildIndex confs journals) E.fullName = some E := by
  obtain ⟨ha, hf⟩ := buildIndex_maps confs journals
  have habbrGet : mapGet (toLowerList E.abbr) (buildIndex confs journals).abbrsMap = some E := by
    rw [ha]
    exact mapGet_foldKey_of_mem keyAbbr _ _ hmem habbrUniq
  have hfullGet : mapGet (toLowerList E.fullName) (buildIndex confs journals).fullNamesMap
      = some E := by
    rw [hf]
    exact mapGet_foldKey_of_mem keyFull _ _ hmem hfullUniq
  have hcrossGet : mapGet (toLowerList E.fullName) (buildIndex confs journals).abbrsMap
      = none := by
    rw [ha]
    exact (mapGet_foldKey_of_not_mem keyAbbr _ [] hcross).trans rfl
  constructor
  · simp only [getEntry, if_neg habbrNe, habbrNorm, habbrGet]
  · simp only [getEntry, if_neg hfullNe, hfullNorm, hcrossGet, hfullGet]

/-- Witness for C1 on a concrete three-entry table. -/
theorem c1_exact_roundtrip_witness :
    normalize cvprEntry.abbr = toLowerList cvprEntry.abbr ∧
    normalize cvprEntry.fullName = toLowerList cvprEntry.fullName ∧
    getEntry (buildIndex [cvprEntry, aaaiEntry] [tocsEntry]) cvprEntry.abbr = some cvprEntry ∧
    getEntry (buildIndex [cvprEntry, aaaiEntry] [tocsEntry]) cvprEntry.fullName
      = some cvprEntry :=
  ⟨by decide, by decide,
   (c1_exact_roundtrip [cvprEntry, aaaiEntry] [tocsEntry] cvprEntry (by decide) (by decide)
      (by decide) (by decide) (by decide) (by decide) (by decide) (by decide)).1,
   (c1_exact_roundtrip [cvprEntry, aaaiEntry] [tocsEntry] cvprEntry (by decide) (by decide)
      (by decide) (by decide) (by decide) (by decide) (by decide) (by decide)).2⟩

/-- Counterexample for C3 as stated: the input `"abcd"` normalizes to an
exact key of the full-name mapping (bound to `shadowedJournal`) and contains
a different entry's length-4 abbreviation as a substring, yet `getEntry`
returns that other entry (`shadowConf`), because exact abbreviation lookup
(strategy 1) precedes exact full-name lookup (strategy 2). -/
theorem c3_exact_fullname_counterexample :
    mapGet (normalize ("abcd".data)) (buildIndex [shadowConf] [shadowedJournal]).fullNamesMap
      = some shadowedJournal ∧
    4 ≤ (toLowerList shadowConf.abbr).length ∧
    subOccurs (toLowerList shadowConf.abbr) (normalize ("abcd".data)) = true ∧
    shadowConf ≠ shadowedJournal ∧
    getEntry (buildIndex [shadowConf] [shadowedJournal]) ("abcd".data) = some shadowConf := by
  refine ⟨by decide, by decide, by decide, by decide, by decide⟩

/-- C3 (amended): the four strategies are tried in fixed order with return on
first success; in particular, for any non-empty input whose normalized form
is an exact key of the full-name mapping and is *not* a key of the
abbreviation mapping, the entry of that full-name key is returned, even when
the normalized input contains a different entry's abbreviation of length ≥ 4
as a substring (strategy 3 is never consulted). -/
theorem c3_exact_fullname_priority (confs journals : List CCFEntry) (name : List Char)
    (E : CCFEntry)
    (hne : name ≠ [])
    (habbr : mapGet (normalize name) (buildIndex confs journals).abbrsMap = none)
    (hfull : mapGet (normalize name) (buildIndex confs journals).fullNamesMap = some E) :
    getEntry (buildIndex confs journals) name = some E := by
  simp only [getEntry, if_neg hne, habbr, hfull]

/-- Witness for C3 (amended): the exact full name of `iccvEntry` is matched
by strategy 2 even though the normalized input contains the length-4
abbreviation of the unrelated `visiConf`, which strategy 3 would match. -/
theorem c3_exact_fullname_priority_witness :
    ("International Conference on Computer Vision".data ≠ ([] : List Char)) ∧
    mapGet (normalize ("International Conference on Computer Vision".data))
      (buildIndex [visiConf] [iccvEntry]).abbrsMap = none ∧
    mapGet (normalize ("International Conference on Computer Vision".data))
      (buildIndex [visiConf] [iccvEntry]).fullNamesMap = some iccvEntry ∧
    subOccurs (toLowerList visiConf.abbr)
      (normalize ("International Conference on Computer Vision".data)) = true ∧
    getEntry (buildIndex [visiConf] [iccvEntry])
      ("International Conference on Computer Vision".data) = some iccvEntry :=
  ⟨by decide, by decide, by decide, by decide,
   c3_exact_fullname_priority [visiConf] [iccvEntry]
     ("International Conference on Computer Vision".data) iccvEntry
     (by decide) (by decide) (by decide)⟩

/-- C7: for a conference paper the extractor invokes the Matcher on the
proceedings title, then the publication title, then the conference name, in
that order, and returns the first non-null Matcher result; a field whose
Matcher result is null (empty or not) does not stop the chain. -/
theorem c7_conference_field_priority (idx : RefIndex) (item : ZItem) (e : CCFEntry)
    (htype : item.itemType = confPaperType) :
    (getEntry idx item.proceedingsTitle = some e → getEntryFromItem idx item = some e) ∧
    (getEntry idx item.proceedingsTitle = none →
      getEntry idx item.publicationTitle = some e →
      getEntryFromItem idx item = some e) ∧
    (getEntry idx item.proceedingsTitle = none →
      getEntry idx item.publicationTitle = none →
      getEntry idx item.conferenceName = some e →
      getEntryFromItem idx item = some e) := by
  refine ⟨fun h1 => ?_, fun h1 h2 => ?_, fun h1 h2 h3 => ?_⟩
  · simp only [getEntryFromItem, if_pos htype, tryField_eq_getEntry, h1]
  · simp only [getEntryFromItem, if_pos htype, tryField_eq_getEntry, h1, h2]
  · simp only [getEntryFromItem, if_pos htype, tryField_eq_getEntry, h1, h2, h3]

/-- Witness for C7: a conference paper whose non-empty proceedings title
matches nothing still falls through to the publication title. -/
theorem c7_conference_field_priority_witness :
    getEntry (buildIndex [cvprEntry, aaaiEntry] [tocsEntry]) ("unknown venue x".data) = none ∧
    getEntry (buildIndex [cvprEntry, aaaiEntry] [tocsEntry]) ("CVPR 2024".data)
      = some cvprEntry ∧
    getEntryFromItem (buildIndex [cvprEntry, aaaiEntry] [tocsEntry])
      { itemType := "conferencePaper".data, proceedingsTitle := "unknown venue x".data,
        publicationTitle := "CVPR 2024".data, conferenceName := [], title := [] }
      = some cvprEntry :=
  ⟨by decide, by decide,
   (c7_conference_field_priority (buildIndex [cvprEntry, aaaiEntry] [tocsEntry])
      { itemType := "conferencePaper".data, proceedingsTitle := "unknown venue x".data,
        publicationTitle := "CVPR 2024".data, conferenceName := [], title := [] }
      cvprEntry (by decide)).2.1 (by decide) (by decide)⟩

/-- Counterexample for C2 as stated: normalization is not idempotent.  On
`"proceedings of proceedings of x"` the first pass strips one
`proceedings of ` prefix and exposes a second one, which only the second pass
removes. -/
theorem c2_normalize_counterexample :
    normalize (normalize ("proceedings of proceedings of x".data)) ≠
      normalize ("proceedings of proceedings of x".data) := by
  decide

/-- C2 (amended): a second application of `normalize` performs no further
trimming or lowercasing — it reduces to the strip pipeline alone — so
`normalize` is idempotent exactly on the inputs whose normalized form the
strip pipeline leaves unchanged (all inputs whose normalized form does not
again expose a strippable prefix or suffix). -/
theorem c2_normalize_idempotent_when_strip_fixed (s : List Char)
    (h : stripPipeline (normalize s) = normalize s) :
    normalize (normalize s) = normalize s := by
  rw [normalize_normalize, h, trimWS_normalize]

/-- Witness for C2 (amended) at a concrete input. -/
theorem c2_normalize_idempotent_when_strip_fixed_witness :
    stripPipeline (normalize ("CVPR 2024".data)) = normalize ("CVPR 2024".data) ∧
    normalize (normalize ("CVPR 2024".data)) = normalize ("CVPR 2024".data) :=
  ⟨by decide, c2_normalize_idempotent_when_strip_fixed ("CVPR 2024".data) (by decide)⟩

end CCFRank
